import Mathlib

/-!
Verification of the docstring structural parser (tensorflow_docs api_generator
parser). The definitions below are a shallow embedding of the Python source:
each regex of the source is translated into an explicit scanner with the same
leftmost-match, greedy/lazy and backtracking behaviour, and each driver loop
(`re.split`, `re.sub`, `re.finditer`) into an explicit recursion. Strings are
modelled as `List Char`; the ASCII fragments of the `re` character classes
`\s`, `\w`, `[A-Z]`, `[ \t]` are modelled explicitly.
-/

namespace TfDocs

/-- Python `re` whitespace class `\s` (ASCII fragment). -/
def isWs (c : Char) : Bool :=
  c == ' ' || c == '\t' || c == '\n' || c == '\r' || c == Char.ofNat 11 || c == Char.ofNat 12

/-- Python `re` word class `\w` (ASCII fragment): letters, digits, underscore. -/
def isWordChar (c : Char) : Bool :=
  c.isAlpha || c.isDigit || c == '_'

/-- The class `[\s\w]` used by the title pattern. -/
def isWordWs (c : Char) : Bool := isWordChar c || isWs c

/-- The class `[A-Z]`. -/
def isUpperAZ (c : Char) : Bool := decide ('A' ≤ c) && decide (c ≤ 'Z')

/-- The class `[ \t]`. -/
def isSpTab (c : Char) : Bool := c == ' ' || c == '\t'

/-- A `\s` character other than a newline (what the lazy `\s*?` before a
`(?=\n)` lookahead may consume). -/
def isNonNlWs (c : Char) : Bool := isWs c && c != '\n'

def aposChar : Char := Char.ofNat 39

def quotChar : Char := Char.ofNat 34

def btickChar : Char := Char.ofNat 96

theorem isPrefixOf_true_iff (l1 l2 : List Char) : l1.isPrefixOf l2 = true ↔ l1 <+: l2 :=
  List.isPrefixOf_iff_prefix

theorem infixOfPre {m l : List Char} (h : m <+: l) : m <:+: l :=
  List.IsPrefix.isInfix h

theorem infixOfSuf {m l : List Char} (h : m <:+ l) : m <:+: l :=
  List.IsSuffix.isInfix h

theorem dropWhile_length_le (p : Char → Bool) (l : List Char) :
    (l.dropWhile p).length ≤ l.length := by
  induction l with
  | nil => simp
  | cons a tl ih =>
    rw [List.dropWhile_cons]
    by_cases h : p a = true
    · simp only [if_pos h]
      exact Nat.le_succ_of_le ih
    · simp [if_neg h]

theorem takeWhile_length_le (p : Char → Bool) (l : List Char) :
    (l.takeWhile p).length ≤ l.length := by
  induction l with
  | nil => simp
  | cons a tl ih =>
    rw [List.takeWhile_cons]
    by_cases h : p a = true
    · simpa [if_pos h] using ih
    · simp [if_neg h]

/-- Python `str.split` on a newline separator. -/
def splitNl : List Char → List (List Char)
  | [] => [[]]
  | c :: cs =>
    if c = '\n' then [] :: splitNl cs
    else
      match splitNl cs with
      | l :: rest => (c :: l) :: rest
      | [] => [[c]]

/-- Python `'\n'.join`. -/
def joinNl : List (List Char) → List Char
  | [] => []
  | l :: rest => rest.foldl (fun acc x => acc ++ '\n' :: x) l

/-- Longest common prefix of two strings (the margin-merging step of
`textwrap.dedent`). -/
def commonPrefix : List Char → List Char → List Char
  | a :: as_, b :: bs => if a = b then a :: commonPrefix as_ bs else []
  | _, _ => []

/-- `textwrap.dedent`: blank out whitespace-only lines, compute the common
leading `[ \t]` margin of all lines that hold content, and strip it. -/
def dedent (text : List Char) : List Char :=
  let ls := (splitNl text).map (fun l => if l ≠ [] ∧ l.all isSpTab then [] else l)
  let indents := (ls.filter (fun l => l.dropWhile isSpTab ≠ [])).map (fun l => l.takeWhile isSpTab)
  let margin := match indents with
    | [] => []
    | i :: r => r.foldl commonPrefix i
  joinNl (ls.map (fun l => if margin.isPrefixOf l then l.drop margin.length else l))

/-- `_pairs`: `[a, b, a, b, ...] ↦ [(a, b), (a, b), ...]` (the source asserts
the input length is even; on even-length input this equals
`zip(items[::2], items[1::2])`). -/
def pairs : List (List Char) → List (List Char × List Char)
  | a :: b :: rest => (a, b) :: pairs rest
  | _ => []

/-! ### The title-block pattern `BLOCK_RE`

`(?:^|^\n|\n\n)(?P<title>[A-Z][\s\w]{0,20})\s*:\s*?(?=\n)(?P<content>.*?)(?=\n\S|$)`
with `re.DOTALL`, used by `TitleBlock.split_string` through
`re.split(..., maxsplit=1)`. -/

/-- The `(?=\n)` lookahead: succeed exactly at a newline (which is kept, the
content group starts on it). -/
def headNl : List Char → Option (List Char)
  | c :: tl => if c = '\n' then some (c :: tl) else none
  | [] => none

/-- The `\s*?(?=\n)` part after the colon: lazily consume non-newline
whitespace until the newline lookahead succeeds. -/
def afterColon (l : List Char) : Option (List Char) :=
  headNl (l.dropWhile isNonNlWs)

/-- The colon of `\s*:` must follow the (greedy) whitespace run directly; no
colon can hide inside the run, so there is no backtracking. -/
def colonHead : List Char → Option (List Char)
  | c :: tl => if c = ':' then afterColon tl else none
  | [] => none

/-- The `\s*:\s*?(?=\n)` part. -/
def colonStep (l : List Char) : Option (List Char) :=
  colonHead (l.dropWhile isWs)

/-- Backtracking over the greedy quantifier `[\s\w]{0,20}` of the title group:
`run` is the maximal `[\s\w]` run after the initial capital, `after` the
remainder; candidate lengths are tried from `k` down to `0`. Returns the
chosen length and the suffix at which the content group starts. -/
def tryK (run after : List Char) : ℕ → Option (ℕ × List Char)
  | 0 => (colonStep (run.drop 0 ++ after)).map (fun r => (0, r))
  | k + 1 =>
    match colonStep (run.drop (k + 1) ++ after) with
    | some r => some (k + 1, r)
    | none => tryK run after k

/-- Match `[A-Z][\s\w]{0,20}\s*:\s*?(?=\n)` at the head of `l`. Returns the
title group and the suffix at which the content group starts. -/
def matchTitle : List Char → Option (List Char × List Char)
  | [] => none
  | u :: tl =>
    if isUpperAZ u then
      (tryK (tl.takeWhile isWordWs) (tl.drop (tl.takeWhile isWordWs).length)
          (min 20 (tl.takeWhile isWordWs).length)).map
        (fun p => (u :: (tl.takeWhile isWordWs).take p.1, p.2))
    else none

/-- The `(?=\n\S|$)` lookahead closing the lazy content group: stop at a
newline followed by non-whitespace, at the end of the text, or (the `$` of a
pattern without `re.MULTILINE`) just before a final newline. -/
def contentStop (r : List Char) : Bool :=
  match r with
  | [] => true
  | [c] => c == '\n'
  | c :: c2 :: _ => c == '\n' && !isWs c2

/-- Split off the lazily matched content group: the shortest prefix whose
remainder satisfies `contentStop`. -/
def splitContent : List Char → List Char × List Char
  | [] => ([], [])
  | c :: tl =>
    if contentStop (c :: tl) then ([], c :: tl)
    else
      let q := splitContent tl
      (c :: q.1, q.2)

/-- One block match of `BLOCK_RE`: the text before the match, the title group,
the content group and the remainder of the input. -/
structure BlockParts where
  before : List Char
  title : List Char
  content : List Char
  rest : List Char
deriving DecidableEq, Repr

/-- A title match starting at the head of `l`, with its content split off. -/
def matchBlockAt (l : List Char) : Option BlockParts :=
  (matchTitle l).map (fun p => ⟨[], p.1, (splitContent p.2).1, (splitContent p.2).2⟩)

/-- The `\n\n` alternative of `BLOCK_RE` tried at one position: two newlines,
then a title match. -/
def blockNlNl : List Char → Option BlockParts
  | c :: c2 :: tl2 => if c = '\n' ∧ c2 = '\n' then matchBlockAt tl2 else none
  | _ => none

/-- Scan for the `\n\n` alternative of `BLOCK_RE` at every position,
accumulating the text before the leftmost match. The two consumed newlines
belong to the match, not to `before`. -/
def findBlockTail : List Char → Option BlockParts
  | [] => none
  | c :: tl =>
    match blockNlNl (c :: tl) with
    | some bp => some bp
    | none => (findBlockTail tl).map (fun bp => ⟨c :: bp.before, bp.title, bp.content, bp.rest⟩)

/-- The `^\n` alternative: a newline at the very start, then a title match. -/
def blockStartNl : List Char → Option BlockParts
  | c :: tl => if c = '\n' then matchBlockAt tl else none
  | [] => none

/-- The leftmost match of `BLOCK_RE`: at position zero the alternatives `^`,
`^\n` and `\n\n` are tried in order, then the `\n\n` alternative at each later
position. -/
def findBlock (s : List Char) : Option BlockParts :=
  match matchBlockAt s with
  | some bp => some bp
  | none =>
    match blockStartNl s with
    | some bp => some bp
    | none => findBlockTail s

/-! ### The item pattern `ITEM_RE`

`^(\*?\*?'?"?\w[\w.'"]*?)\s*:\s` with `re.MULTILINE`, used through `re.split`
on the dedented content of a title block. -/

/-- The tail class `[\w.'"]`. -/
def isTailChar (c : Char) : Bool :=
  isWordChar c || c == '.' || c == aposChar || c == quotChar

/-- One optional literal character (a greedy `x?`; backtracking it can never
help here, since the following `\w` rejects every optional character). -/
def takeOpt (c : Char) (l : List Char) : List Char × List Char :=
  match l with
  | x :: tl => if x = c then ([x], tl) else ([], x :: tl)
  | [] => ([], [])

/-- The optional markers `\*?\*?'?"?` in front of an item name. -/
def takeOpts (l : List Char) : List Char × List Char :=
  (((takeOpt '*' l).1 ++ (takeOpt '*' (takeOpt '*' l).2).1 ++
      (takeOpt aposChar (takeOpt '*' (takeOpt '*' l).2).2).1 ++
      (takeOpt quotChar (takeOpt aposChar (takeOpt '*' (takeOpt '*' l).2).2).2).1),
    (takeOpt quotChar (takeOpt aposChar (takeOpt '*' (takeOpt '*' l).2).2).2).2)

/-- The `:` and single `\s` after the whitespace run of `\s*:\s`. -/
def itemColonHead : List Char → Option (Char × List Char)
  | c :: w :: tl => if c = ':' ∧ isWs w then some (w, tl) else none
  | _ => none

/-- The `\s*:\s` part closing an item name. Returns the single whitespace
character after the colon (it decides whether the next position is a line
start) and the remainder. -/
def itemColonTest (l : List Char) : Option (Char × List Char) :=
  itemColonHead (l.dropWhile isWs)

/-- The lazy tail `[\w.'"]*?` of an item name: grow one character at a time,
testing `itemColonTest` first at each length. Returns the tail, the single
whitespace character after the colon, and the remainder. -/
def findTail : List Char → Option (List Char × Char × List Char)
  | [] => none
  | c :: tl =>
    match itemColonTest (c :: tl) with
    | some (w, rest) => some ([], w, rest)
    | none =>
      if isTailChar c then (findTail tl).map (fun p => (c :: p.1, p.2.1, p.2.2))
      else none

/-- The `\w` and lazy tail after the optional markers. -/
def tryItemCore (pre : List Char) : List Char → Option (List Char × Char × List Char)
  | c :: tl =>
    if isWordChar c then (findTail tl).map (fun p => (pre ++ c :: p.1, p.2.1, p.2.2))
    else none
  | [] => none

/-- Match `ITEM_RE` at the current position (which the caller guarantees is a
line start). Returns the name group, the whitespace character consumed after
the colon, and the remainder. -/
def tryItem (l : List Char) : Option (List Char × Char × List Char) :=
  tryItemCore (takeOpts l).1 (takeOpts l).2

theorem itemColonTest_rest_lt {l : List Char} {w : Char} {rest : List Char}
    (h : itemColonTest l = some (w, rest)) : rest.length < l.length := by
  unfold itemColonTest at h
  have hd : (l.dropWhile isWs).length ≤ l.length := dropWhile_length_le isWs l
  cases hdw : l.dropWhile isWs with
  | nil => rw [hdw] at h; exact absurd h (by simp [itemColonHead])
  | cons c tl =>
    rw [hdw] at h
    cases tl with
    | nil => exact absurd h (by simp [itemColonHead])
    | cons w' tl' =>
      rw [itemColonHead] at h
      by_cases hc : c = ':' ∧ isWs w'
      · simp only [if_pos hc, Option.some.injEq, Prod.mk.injEq] at h
        obtain ⟨-, rfl⟩ := h
        rw [hdw] at hd
        simp only [List.length_cons] at hd
        omega
      · simp [if_neg hc] at h

theorem findTail_rest_lt {l tail : List Char} {w : Char} {rest : List Char}
    (h : findTail l = some (tail, w, rest)) : rest.length < l.length := by
  induction l generalizing tail w rest with
  | nil => exact absurd h (by simp [findTail])
  | cons c tl ih =>
    rw [findTail] at h
    cases hct : itemColonTest (c :: tl) with
    | some p =>
      obtain ⟨w', rest'⟩ := p
      rw [hct] at h
      simp only [Option.some.injEq, Prod.mk.injEq] at h
      obtain ⟨-, -, rfl⟩ := h
      exact itemColonTest_rest_lt hct
    | none =>
      rw [hct] at h
      by_cases htc : isTailChar c = true
      · rw [if_pos htc] at h
        cases hf : findTail tl with
        | none => rw [hf] at h; exact absurd h (by simp)
        | some p =>
          obtain ⟨t', w', r'⟩ := p
          rw [hf] at h
          simp only [Option.map_some', Option.some.injEq, Prod.mk.injEq] at h
          obtain ⟨-, -, rfl⟩ := h
          exact Nat.lt_succ_of_lt (ih hf)
      · simp [if_neg htc] at h

theorem takeOpt_rest_le (c : Char) (l : List Char) : (takeOpt c l).2.length ≤ l.length := by
  unfold takeOpt
  cases l with
  | nil => simp
  | cons x tl =>
    by_cases h : x = c
    · simp [if_pos h]
    · simp [if_neg h]

theorem takeOpts_rest_le (l : List Char) : (takeOpts l).2.length ≤ l.length := by
  unfold takeOpts
  calc (takeOpt quotChar (takeOpt aposChar (takeOpt '*' (takeOpt '*' l).2).2).2).2.length
      ≤ (takeOpt aposChar (takeOpt '*' (takeOpt '*' l).2).2).2.length := takeOpt_rest_le ..
    _ ≤ (takeOpt '*' (takeOpt '*' l).2).2.length := takeOpt_rest_le ..
    _ ≤ (takeOpt '*' l).2.length := takeOpt_rest_le ..
    _ ≤ l.length := takeOpt_rest_le ..

theorem tryItemCore_rest_lt {pre l g : List Char} {w : Char} {rest : List Char}
    (h : tryItemCore pre l = some (g, w, rest)) : rest.length < l.length := by
  cases l with
  | nil => exact absurd h (by simp [tryItemCore])
  | cons c tl =>
    rw [tryItemCore] at h
    by_cases hw : isWordChar c = true
    · rw [if_pos hw] at h
      cases hf : findTail tl with
      | none => rw [hf] at h; exact absurd h (by simp)
      | some p =>
        obtain ⟨t', w', r'⟩ := p
        rw [hf] at h
        simp only [Option.map_some', Option.some.injEq, Prod.mk.injEq] at h
        obtain ⟨-, -, rfl⟩ := h
        exact Nat.lt_succ_of_lt (findTail_rest_lt hf)
    · simp [if_neg hw] at h

theorem tryItem_rest_lt {l g : List Char} {w : Char} {rest : List Char}
    (h : tryItem l = some (g, w, rest)) : rest.length < l.length := by
  have h1 := tryItemCore_rest_lt h
  have h2 := takeOpts_rest_le l
  omega

/-- The `re.split(ITEM_RE, content)` driver: scan every position; at a line
start attempt the item pattern; a match contributes the text before it and
the name group, and scanning resumes after the single whitespace character
that follows the colon. The head of the result is the leading text. The fuel
argument only bounds the recursion; `content.length + 1` is always enough by
`tryItem_rest_lt`. -/
def itemSplitAux : ℕ → List Char → Bool → List (List Char)
  | 0, l, _ => [l]
  | _ + 1, [], _ => [[]]
  | fuel + 1, c :: tl, atStart =>
    match (if atStart then tryItem (c :: tl) else none) with
    | some (g, w, rest) => [] :: g :: itemSplitAux fuel rest (w == '\n')
    | none =>
      match itemSplitAux fuel tl (c == '\n') with
      | pre :: ps => (c :: pre) :: ps
      | [] => [[c]]

/-- `re.split(ITEM_RE, content)`; position zero is a line start. -/
def itemSplit (l : List Char) : List (List Char) := itemSplitAux (l.length + 1) l true

/-- A chunk produced by `TitleBlock.split_string`: either a plain string or a
`TitleBlock(title, text, items)`. -/
inductive Chunk where
  | prose (text : List Char)
  | titleBlock (title : List Char) (text : List Char) (items : List (List Char × List Char))
deriving DecidableEq, Repr

/-- Build a `TitleBlock` from a raw title and content: dedent the content,
split it at item boundaries, and pair up the pieces after the leading text. -/
def mkTitleChunk (title content : List Char) : Chunk :=
  Chunk.titleBlock title ((itemSplit (dedent content)).headD [])
    (pairs (itemSplit (dedent content)).tail)

theorem afterColon_le {l r : List Char} (h : afterColon l = some r) :
    r.length ≤ l.length := by
  unfold afterColon at h
  have hd : (l.dropWhile isNonNlWs).length ≤ l.length := dropWhile_length_le isNonNlWs l
  cases hdw : l.dropWhile isNonNlWs with
  | nil => rw [hdw] at h; exact absurd h (by simp [headNl])
  | cons c tl =>
    rw [hdw] at h
    rw [headNl] at h
    by_cases hc : c = '\n'
    · simp only [if_pos hc, Option.some.injEq] at h
      subst h
      rw [hdw] at hd
      exact hd
    · simp [if_neg hc] at h

theorem colonStep_lt {l r : List Char} (h : colonStep l = some r) :
    r.length < l.length := by
  unfold colonStep at h
  have hd : (l.dropWhile isWs).length ≤ l.length := dropWhile_length_le isWs l
  cases hdw : l.dropWhile isWs with
  | nil => rw [hdw] at h; exact absurd h (by simp [colonHead])
  | cons c tl =>
    rw [hdw] at h
    rw [colonHead] at h
    by_cases hc : c = ':'
    · rw [if_pos hc] at h
      have := afterColon_le h
      rw [hdw] at hd
      simp only [List.length_cons] at hd
      omega
    · simp [if_neg hc] at h

theorem tryK_lt {run after : List Char} {K k : ℕ} {r : List Char}
    (h : tryK run after K = some (k, r)) :
    r.length < run.length + after.length := by
  induction K with
  | zero =>
    rw [tryK] at h
    cases hc : colonStep (run.drop 0 ++ after) with
    | none => rw [hc] at h; exact absurd h (by simp)
    | some r' =>
      rw [hc] at h
      simp only [Option.map_some', Option.some.injEq, Prod.mk.injEq] at h
      obtain ⟨-, rfl⟩ := h
      have := colonStep_lt hc
      simp only [List.drop_zero, List.length_append] at this
      exact this
  | succ n ih =>
    rw [tryK] at h
    cases hc : colonStep (run.drop (n + 1) ++ after) with
    | some r' =>
      rw [hc] at h
      simp only [Option.some.injEq, Prod.mk.injEq] at h
      obtain ⟨-, rfl⟩ := h
      have := colonStep_lt hc
      simp only [List.length_append, List.length_drop] at this
      omega
    | none =>
      rw [hc] at h
      exact ih h

theorem matchTitle_lt {l t r : List Char} (h : matchTitle l = some (t, r)) :
    r.length < l.length := by
  cases l with
  | nil => exact absurd h (by simp [matchTitle])
  | cons u tl =>
    rw [matchTitle] at h
    by_cases hu : isUpperAZ u = true
    · rw [if_pos hu] at h
      cases hk : tryK (tl.takeWhile isWordWs) (tl.drop (tl.takeWhile isWordWs).length)
          (min 20 (tl.takeWhile isWordWs).length) with
      | none => rw [hk] at h; exact absurd h (by simp)
      | some p =>
        obtain ⟨k, r'⟩ := p
        rw [hk] at h
        simp only [Option.map_some', Option.some.injEq, Prod.mk.injEq] at h
        obtain ⟨-, rfl⟩ := h
        have h1 := tryK_lt hk
        have h2 : (tl.takeWhile isWordWs).length ≤ tl.length := takeWhile_length_le ..
        simp only [List.length_drop] at h1
        simp only [List.length_cons]
        omega
    · simp [if_neg hu] at h

theorem splitContent_rest_le (l : List Char) : (splitContent l).2.length ≤ l.length := by
  induction l with
  | nil => simp [splitContent]
  | cons c tl ih =>
    rw [splitContent]
    by_cases h : contentStop (c :: tl) = true
    · simp [if_pos h]
    · simp only [if_neg h]
      exact Nat.le_succ_of_le ih

theorem matchBlockAt_rest_lt {l : List Char} {bp : BlockParts}
    (h : matchBlockAt l = some bp) : bp.rest.length < l.length := by
  unfold matchBlockAt at h
  cases hm : matchTitle l with
  | none => rw [hm] at h; exact absurd h (by simp)
  | some p =>
    obtain ⟨t, r⟩ := p
    rw [hm] at h
    simp only [Option.map_some', Option.some.injEq] at h
    subst h
    have h1 := matchTitle_lt hm
    have h2 := splitContent_rest_le r
    simp only
    omega

theorem blockNlNl_rest_lt {s : List Char} {bp : BlockParts}
    (h : blockNlNl s = some bp) : bp.rest.length < s.length := by
  cases s with
  | nil => exact absurd h (by simp [blockNlNl])
  | cons c tl =>
    cases tl with
    | nil => exact absurd h (by simp [blockNlNl])
    | cons c2 tl2 =>
      rw [blockNlNl] at h
      by_cases hc : c = '\n' ∧ c2 = '\n'
      · rw [if_pos hc] at h
        have := matchBlockAt_rest_lt h
        simp only [List.length_cons]
        omega
      · simp [if_neg hc] at h

theorem findBlockTail_rest_lt {s : List Char} {bp : BlockParts}
    (h : findBlockTail s = some bp) : bp.rest.length < s.length := by
  induction s generalizing bp with
  | nil => exact absurd h (by simp [findBlockTail])
  | cons c tl ih =>
    rw [findBlockTail] at h
    cases hhd : blockNlNl (c :: tl) with
    | some bp' =>
      rw [hhd] at h
      simp only [Option.some.injEq] at h
      subst h
      exact blockNlNl_rest_lt hhd
    | none =>
      rw [hhd] at h
      cases hf : findBlockTail tl with
      | none => rw [hf] at h; exact absurd h (by simp)
      | some bp' =>
        rw [hf] at h
        simp only [Option.map_some', Option.some.injEq] at h
        subst h
        have := ih hf
        simp only [List.length_cons]
        omega

theorem blockStartNl_rest_lt {s : List Char} {bp : BlockParts}
    (h : blockStartNl s = some bp) : bp.rest.length < s.length := by
  cases s with
  | nil => exact absurd h (by simp [blockStartNl])
  | cons c tl =>
    rw [blockStartNl] at h
    by_cases hc : c = '\n'
    · rw [if_pos hc] at h
      have := matchBlockAt_rest_lt h
      simp only [List.length_cons]
      omega
    · simp [if_neg hc] at h

theorem findBlock_rest_lt {s : List Char} {bp : BlockParts}
    (h : findBlock s = some bp) : bp.rest.length < s.length := by
  unfold findBlock at h
  cases h0 : matchBlockAt s with
  | some bp' =>
    rw [h0] at h
    simp only [Option.some.injEq] at h
    subst h
    exact matchBlockAt_rest_lt h0
  | none =>
    rw [h0] at h
    cases h1 : blockStartNl s with
    | some bp' =>
      rw [h1] at h
      simp only [Option.some.injEq] at h
      subst h
      exact blockStartNl_rest_lt h1
    | none =>
      rw [h1] at h
      exact findBlockTail_rest_lt h

/-- The `TitleBlock.split_string` loop: repeatedly split at the leftmost
`BLOCK_RE` match, emitting the text before it and the parsed title block,
then continue on the remainder; stop when the remainder is empty or has no
further match. The fuel argument only bounds the recursion; `s.length + 1`
is always enough by `findBlock_rest_lt`. -/
def splitStringAux : ℕ → List Char → List Chunk
  | 0, _ => []
  | fuel + 1, s =>
    if s.isEmpty then []
    else
      match findBlock s with
      | none => [Chunk.prose s]
      | some bp => Chunk.prose bp.before :: mkTitleChunk bp.title bp.content ::
          splitStringAux fuel bp.rest

/-- `TitleBlock.split_string`. -/
def splitString (s : List Char) : List Chunk := splitStringAux (s.length + 1) s

/-! ### `_AddDoctestFences` and its pattern `CARET_BLOCK_RE`

`\n(?P<indent>\ *)(?P<content>\>\>\>.*?)\n\s*?(?=\n|$)` with `re.DOTALL`,
applied through `re.sub`. -/

/-- The `\n\s*?(?=\n|$)` part closing the lazy content group: a newline, then
lazily consumed non-newline whitespace, then a newline lookahead or the end of
the text. Returns the remainder after the consumed part. -/
def caretEnd : List Char → Option (List Char)
  | c :: tl =>
    if c = '\n' then
      match tl.dropWhile isNonNlWs with
      | [] => some []
      | x :: r => if x = '\n' then some (x :: r) else none
    else none
  | [] => none

/-- The lazy content tail after `>>>`: grow one character at a time, testing
`caretEnd` first at each length. Returns the tail and the remainder after the
full match. -/
def findCaretContent : List Char → Option (List Char × List Char)
  | [] => none
  | c :: tl =>
    match caretEnd (c :: tl) with
    | some rest => some ([], rest)
    | none => (findCaretContent tl).map (fun p => (c :: p.1, p.2))

/-- The `\>\>\>` literal then the lazy content. -/
def caretAfterIndent : List Char → Option (List Char × List Char)
  | a :: b :: d :: w3 =>
    if a = '>' ∧ b = '>' ∧ d = '>' then
      (findCaretContent w3).map (fun p => ('>' :: '>' :: '>' :: p.1, p.2))
    else none
  | _ => none

/-- Match `CARET_BLOCK_RE` at the current position: a newline, an indent of
spaces, `>>>`, the lazy content, and the blank-ish closing line. Returns the
indent group, the content group and the remainder. -/
def tryCaretAt : List Char → Option (List Char × List Char × List Char)
  | c :: w1 =>
    if c = '\n' then
      (caretAfterIndent (w1.drop (w1.takeWhile (fun x => x == ' ')).length)).map
        (fun p => (w1.takeWhile (fun x => x == ' '), p.1, p.2))
    else none
  | [] => none

theorem caretEnd_le {l r : List Char} (h : caretEnd l = some r) : r.length ≤ l.length := by
  cases l with
  | nil => exact absurd h (by simp [caretEnd])
  | cons c tl =>
    rw [caretEnd] at h
    by_cases hc : c = '\n'
    · rw [if_pos hc] at h
      have hd : (tl.dropWhile isNonNlWs).length ≤ tl.length := dropWhile_length_le ..
      cases hdw : tl.dropWhile isNonNlWs with
      | nil =>
        rw [hdw] at h
        simp only [Option.some.injEq] at h
        subst h
        simp
      | cons x r' =>
        rw [hdw] at h
        by_cases hx : x = '\n'
        · simp only [if_pos hx, Option.some.injEq] at h
          subst h
          rw [hdw] at hd
          simp only [List.length_cons] at hd ⊢
          omega
        · simp [if_neg hx] at h
    · simp [if_neg hc] at h

theorem findCaretContent_rest_le {l t r : List Char}
    (h : findCaretContent l = some (t, r)) : r.length ≤ l.length := by
  induction l generalizing t r with
  | nil => exact absurd h (by simp [findCaretContent])
  | cons c tl ih =>
    rw [findCaretContent] at h
    cases hce : caretEnd (c :: tl) with
    | some rest =>
      rw [hce] at h
      simp only [Option.some.injEq, Prod.mk.injEq] at h
      obtain ⟨-, rfl⟩ := h
      exact caretEnd_le hce
    | none =>
      rw [hce] at h
      cases hf : findCaretContent tl with
      | none => rw [hf] at h; exact absurd h (by simp)
      | some p =>
        obtain ⟨t', r'⟩ := p
        rw [hf] at h
        simp only [Option.map_some', Option.some.injEq, Prod.mk.injEq] at h
        obtain ⟨-, rfl⟩ := h
        exact Nat.le_succ_of_le (ih hf)

theorem caretAfterIndent_rest_le {l t r : List Char}
    (h : caretAfterIndent l = some (t, r)) : r.length ≤ l.length := by
  cases l with
  | nil => exact absurd h (by simp [caretAfterIndent])
  | cons a l1 =>
    cases l1 with
    | nil => exact absurd h (by simp [caretAfterIndent])
    | cons b l2 =>
      cases l2 with
      | nil => exact absurd h (by simp [caretAfterIndent])
      | cons d w3 =>
        rw [caretAfterIndent] at h
        by_cases habd : a = '>' ∧ b = '>' ∧ d = '>'
        · rw [if_pos habd] at h
          cases hf : findCaretContent w3 with
          | none => rw [hf] at h; exact absurd h (by simp)
          | some p =>
            obtain ⟨t', r'⟩ := p
            rw [hf] at h
            simp only [Option.map_some', Option.some.injEq, Prod.mk.injEq] at h
            obtain ⟨-, rfl⟩ := h
            have := findCaretContent_rest_le hf
            simp only [List.length_cons]
            omega
        · simp [if_neg habd] at h

theorem tryCaretAt_rest_lt {l ind t r : List Char}
    (h : tryCaretAt l = some (ind, t, r)) : r.length < l.length := by
  cases l with
  | nil => exact absurd h (by simp [tryCaretAt])
  | cons c w1 =>
    rw [tryCaretAt] at h
    by_cases hc : c = '\n'
    · rw [if_pos hc] at h
      cases hf : caretAfterIndent (w1.drop (w1.takeWhile (fun x => x == ' ')).length) with
      | none => rw [hf] at h; exact absurd h (by simp)
      | some p =>
        obtain ⟨t', r'⟩ := p
        rw [hf] at h
        simp only [Option.map_some', Option.some.injEq, Prod.mk.injEq] at h
        obtain ⟨-, -, rfl⟩ := h
        have h1 := caretAfterIndent_rest_le hf
        have h2 : (w1.drop (w1.takeWhile (fun x => x == ' ')).length).length ≤ w1.length := by
          simp only [List.length_drop]
          omega
        simp only [List.length_cons]
        omega
    · simp [if_neg hc] at h

/-- The `re.sub(CARET_BLOCK_RE, ...)` driver of `_AddDoctestFences`: scan for
matches left to right; each match `\n{indent}{content}\n{w}` is replaced by
`\n{indent}```\n{indent}{content}\n{indent}```\n` and scanning resumes after
the match. The fuel argument only bounds the recursion; `s.length + 1` is
always enough by `tryCaretAt_rest_lt`. -/
def addFencesAux : ℕ → List Char → List Char
  | 0, l => l
  | _ + 1, [] => []
  | fuel + 1, c :: tl =>
    match tryCaretAt (c :: tl) with
    | some (ind, content, rest) =>
      ('\n' :: ind ++ [btickChar, btickChar, btickChar, '\n'] ++ ind ++ content ++
        '\n' :: ind ++ [btickChar, btickChar, btickChar, '\n']) ++ addFencesAux fuel rest
    | none => c :: addFencesAux fuel tl

/-- `_AddDoctestFences.__call__`. -/
def addDoctestFences (s : List Char) : List Char := addFencesAux (s.length + 1) s

/-! ### `_handle_compatibility` and its pattern

`[ \t]*@compatibility\(([^\n]+?)\)\s*\n(.*?)[ \t]*@end_compatibility` with
`re.DOTALL`, applied through `re.finditer` and `re.subn`. -/

def openMarker : List Char := "@compatibility(".toList

def endMarker : List Char := "@end_compatibility".toList

/-- The `\)\s*\n` part after the tag: the greedy `\s*` backtracks until the
literal newline matches, so it consumes the whitespace run through its last
newline; fail when the run holds none. Returns the remainder (the body
start). -/
def wsThruLastNl : List Char → Option (List Char)
  | [] => none
  | c :: tl =>
    if isWs c then
      match wsThruLastNl tl with
      | some r => some r
      | none => if c = '\n' then some tl else none
    else none

/-- The closing `\)\s*\n` after the tag, tested at one position. -/
def parenTest : List Char → Option (List Char)
  | p :: tl2 => if p = ')' then wsThruLastNl tl2 else none
  | [] => none

/-- The lazy tag `([^\n]+?)` followed by `\)\s*\n`: grow the tag one
character at a time (newlines are excluded), testing the closing paren first
at each length past the first. Returns the tag group and the body start. -/
def findTagParen : List Char → Option (List Char × List Char)
  | [] => none
  | c :: tl =>
    if c = '\n' then none
    else
      match parenTest tl with
      | some bodyStart => some ([c], bodyStart)
      | none => (findTagParen tl).map (fun q => (c :: q.1, q.2))

/-- The closing `[ \t]*@end_compatibility` tested at one position: a greedy
space/tab run directly followed by the literal (the literal starts with `@`,
so no other split of the run can match). -/
def closeHere (l : List Char) : Bool := endMarker.isPrefixOf (l.dropWhile isSpTab)

/-- The remainder after the closing `[ \t]*@end_compatibility`. -/
def afterClose (l : List Char) : List Char := (l.dropWhile isSpTab).drop endMarker.length

/-- The lazy body `(.*?)`: the shortest prefix after which the closing
`[ \t]*@end_compatibility` matches. Returns the body group and the remainder
after the whole match. -/
def findBody : List Char → Option (List Char × List Char)
  | [] => none
  | c :: tl =>
    if closeHere (c :: tl) then some ([], afterClose (c :: tl))
    else (findBody tl).map (fun p => (c :: p.1, p.2))

/-- Match the compatibility pattern at the current position: a space/tab run,
the literal `@compatibility(`, the tag, `)\s*\n`, the body, and the closing
marker. Returns the tag group, the body group and the remainder. -/
def tryCompat (w : List Char) : Option (List Char × List Char × List Char) :=
  if openMarker.isPrefixOf (w.dropWhile isSpTab) then
    (findTagParen ((w.dropWhile isSpTab).drop openMarker.length)).bind
      (fun q => (findBody q.2).map (fun p => (q.1, p.1, p.2)))
  else none

theorem wsThruLastNl_lt {l r : List Char} (h : wsThruLastNl l = some r) :
    r.length < l.length := by
  induction l generalizing r with
  | nil => exact absurd h (by simp [wsThruLastNl])
  | cons c tl ih =>
    rw [wsThruLastNl] at h
    by_cases hw : isWs c = true
    · rw [if_pos hw] at h
      cases hr : wsThruLastNl tl with
      | some r' =>
        rw [hr] at h
        simp only [Option.some.injEq] at h
        subst h
        exact Nat.lt_succ_of_lt (ih hr)
      | none =>
        rw [hr] at h
        by_cases hc : c = '\n'
        · simp only [if_pos hc, Option.some.injEq] at h
          subst h
          simp
        · simp [if_neg hc] at h
    · simp [if_neg hw] at h

theorem parenTest_lt {l r : List Char} (h : parenTest l = some r) :
    r.length < l.length := by
  cases l with
  | nil => exact absurd h (by simp [parenTest])
  | cons p tl2 =>
    rw [parenTest] at h
    by_cases hp : p = ')'
    · rw [if_pos hp] at h
      have := wsThruLastNl_lt h
      simp only [List.length_cons]
      omega
    · simp [if_neg hp] at h

theorem findTagParen_rest_lt {l tag r : List Char} (h : findTagParen l = some (tag, r)) :
    r.length < l.length := by
  induction l generalizing tag r with
  | nil => exact absurd h (by simp [findTagParen])
  | cons c tl ih =>
    rw [findTagParen] at h
    by_cases hc : c = '\n'
    · simp [if_pos hc] at h
    · rw [if_neg hc] at h
      cases hpt : parenTest tl with
      | some bodyStart =>
        rw [hpt] at h
        simp only [Option.some.injEq, Prod.mk.injEq] at h
        obtain ⟨-, rfl⟩ := h
        have := parenTest_lt hpt
        simp only [List.length_cons]
        omega
      | none =>
        rw [hpt] at h
        cases hf : findTagParen tl with
        | none => rw [hf] at h; exact absurd h (by simp)
        | some q =>
          obtain ⟨t', r'⟩ := q
          rw [hf] at h
          simp only [Option.map_some', Option.some.injEq, Prod.mk.injEq] at h
          obtain ⟨-, rfl⟩ := h
          exact Nat.lt_succ_of_lt (ih hf)

theorem findBody_rest_le {l body r : List Char} (h : findBody l = some (body, r)) :
    r.length ≤ l.length := by
  induction l generalizing body r with
  | nil => exact absurd h (by simp [findBody])
  | cons c tl ih =>
    rw [findBody] at h
    by_cases hc : closeHere (c :: tl) = true
    · simp only [if_pos hc, Option.some.injEq, Prod.mk.injEq] at h
      obtain ⟨-, rfl⟩ := h
      unfold afterClose
      have h1 : ((c :: tl).dropWhile isSpTab).length ≤ (c :: tl).length :=
        dropWhile_length_le ..
      simp only [List.length_drop]
      omega
    · rw [if_neg hc] at h
      cases hf : findBody tl with
      | none => rw [hf] at h; exact absurd h (by simp)
      | some p =>
        obtain ⟨b', r'⟩ := p
        rw [hf] at h
        simp only [Option.map_some', Option.some.injEq, Prod.mk.injEq] at h
        obtain ⟨-, rfl⟩ := h
        exact Nat.le_succ_of_le (ih hf)

theorem tryCompat_rest_lt {w tag body r : List Char}
    (h : tryCompat w = some (tag, body, r)) : r.length < w.length := by
  unfold tryCompat at h
  by_cases hop : openMarker.isPrefixOf (w.dropWhile isSpTab) = true
  · rw [if_pos hop] at h
    cases htp : findTagParen ((w.dropWhile isSpTab).drop openMarker.length) with
    | none => rw [htp] at h; exact absurd h (by simp)
    | some q =>
      obtain ⟨tag', bodyStart⟩ := q
      rw [htp, Option.some_bind] at h
      cases hfb : findBody bodyStart with
      | none => rw [hfb] at h; exact absurd h (by simp)
      | some p =>
        obtain ⟨b', r'⟩ := p
        rw [hfb] at h
        simp only [Option.map_some', Option.some.injEq, Prod.mk.injEq] at h
        obtain ⟨-, -, rfl⟩ := h
        have h1 := findBody_rest_le hfb
        have h2 := findTagParen_rest_lt htp
        have h3 : ((w.dropWhile isSpTab).drop openMarker.length).length ≤ w.length := by
          have := dropWhile_length_le isSpTab w
          simp only [List.length_drop]
          omega
        omega
  · rw [if_neg hop] at h
    exact absurd h (by simp)

/-- The `re.finditer`/`re.subn` driver of `_handle_compatibility`: scan for
matches left to right, collecting `(tag, body)` pairs and deleting each
matched span from the text; scanning resumes after each match. Returns the
stripped text and the match list in order. The fuel argument only bounds the
recursion; `s.length + 1` is always enough by `tryCompat_rest_lt`. -/
def handleCompatAux : ℕ → List Char → List Char × List (List Char × List Char)
  | 0, l => (l, [])
  | _ + 1, [] => ([], [])
  | fuel + 1, c :: tl =>
    match tryCompat (c :: tl) with
    | some (tag, body, rest) =>
      ((handleCompatAux fuel rest).1, (tag, body) :: (handleCompatAux fuel rest).2)
    | none =>
      (c :: (handleCompatAux fuel tl).1, (handleCompatAux fuel tl).2)

/-- `_handle_compatibility` up to the final `dict` construction: the stripped
text and the `(tag, body)` matches in scan order. -/
def handleCompat (s : List Char) : List Char × List (List Char × List Char) :=
  handleCompatAux (s.length + 1) s

/-- The stripped text returned by `_handle_compatibility`. -/
def compatStrip (s : List Char) : List Char := (handleCompat s).1

/-- The `(tag, body)` matches of `_handle_compatibility` in scan order. -/
def compatMatches (s : List Char) : List (List Char × List Char) := (handleCompat s).2

/-- One `compatibility_notes[tag] = body` dict update: overwrite in place if
the tag is present, else append. -/
def insertNote (m : List (List Char × List Char)) (t b : List Char) :
    List (List Char × List Char) :=
  if m.any (fun p => p.1 == t) then m.map (fun p => if p.1 == t then (p.1, b) else p)
  else m ++ [(t, b)]

/-- The `compatibility_notes` dict after all `finditer` matches. -/
def buildNotes (l : List (List Char × List Char)) : List (List Char × List Char) :=
  l.foldl (fun m p => insertNote m p.1 p.2) []

/-- Dict lookup. -/
def lookupNote (m : List (List Char × List Char)) (t : List Char) :
    Option (List Char) :=
  (m.find? (fun p => p.1 == t)).map (fun p => p.2)

/-- The compatibility mapping of `_handle_compatibility`. -/
def compatibilityMap (s : List Char) : List (List Char × List Char) :=
  buildNotes (compatMatches s)

/-! ### `parse_md_docstring` after reference resolution -/

/-- The class `[a-zA-Z_.0-9]` of the `@@` bookkeeping pattern. -/
def isAtatChar (c : Char) : Bool := c.isAlpha || c.isDigit || c == '_' || c == '.'

/-- `re.match(' *@@[a-zA-Z_.0-9]+ *$', line)` on a single line: leading
spaces, `@@`, at least one class character, trailing spaces, end of line (the
greedy runs admit no other split). -/
def atatMatch (line : List Char) : Bool :=
  match (line.dropWhile (fun c => c == ' ')) with
  | a :: b :: l2 =>
    a == '@' && b == '@' && !(l2.takeWhile isAtatChar).isEmpty &&
      (l2.dropWhile isAtatChar).all (fun c => c == ' ')
  | _ => false

/-- Drop the lines matched by the `@@` bookkeeping pattern. -/
def atatFilter (raw : List Char) : List Char :=
  joinNl ((splitNl raw).filter (fun l => !atatMatch l))

/-- Python `in` on strings: substring test. -/
def containsSub (m : List Char) : List Char → Bool
  | [] => m.isEmpty
  | c :: tl => m.isPrefixOf (c :: tl) || containsSub m tl

theorem containsSub_iff (m s : List Char) : containsSub m s = true ↔ m <:+: s := by
  induction s with
  | nil =>
    simp only [containsSub, List.isEmpty_iff]
    constructor
    · rintro rfl; exact List.infix_rfl
    · intro h
      exact List.eq_nil_of_infix_nil h
  | cons c tl ih =>
    rw [containsSub]
    simp only [Bool.or_eq_true, isPrefixOf_true_iff, ih]
    exact (List.infix_cons_iff).symm

/-- The auto-generated sentinel phrase. -/
def sentinel : List Char := "Generated by: tensorflow/tools/api/generator".toList

/-- `DocstringInfo`. -/
structure DocstringInfo where
  brief : List Char
  docstringParts : List Chunk
  compatibility : List (List Char × List Char)
deriving DecidableEq, Repr

/-- The suppressed-or-not docstring after compatibility extraction: the
sentinel check runs on the stripped text. -/
def suppressGenerated (stripped : List Char) : List Char :=
  if containsSub sentinel stripped then [] else stripped

/-- `parse_md_docstring` from the `@@`-line removal on (the preceding steps —
introspection and reference resolution — are external collaborators; `raw` is
their output): remove `@@` lines, extract compatibility notes, suppress a
generated docstring, pop the first line as the brief, and segment the rest. -/
def parseMdDocstringCore (raw : List Char) : DocstringInfo :=
  ⟨(splitNl (suppressGenerated (compatStrip (atatFilter raw)))).headD [],
    splitString (joinNl (splitNl (suppressGenerated (compatStrip (atatFilter raw)))).tail),
    compatibilityMap (atatFilter raw)⟩

/-- Brief extraction followed by title-block segmentation (steps 6-7 of the
orchestrator, without the earlier annotation and compatibility passes). -/
def briefTitleParse (d : List Char) : List Char × List Chunk :=
  ((splitNl d).headD [], splitString (joinNl (splitNl d).tail))

/-! ### Declarative characterization of the title-block boundary -/

/-- The title-boundary pattern, stated declaratively: an upper-case letter,
then at most 20 word-or-whitespace characters (whitespace may include line
breaks, so the phrase may span lines), then optional whitespace, a colon,
optional non-newline whitespace, and a newline. No leading whitespace is
permitted before the upper-case letter. -/
def TitleLineSpec (l : List Char) : Prop :=
  ∃ u body ws1 ws2 rest,
    l = u :: (body ++ (ws1 ++ ':' :: (ws2 ++ '\n' :: rest))) ∧
    isUpperAZ u = true ∧ body.length ≤ 20 ∧ (∀ c ∈ body, isWordWs c = true) ∧
    (∀ c ∈ ws1, isWs c = true) ∧ (∀ c ∈ ws2, isNonNlWs c = true)

/-- A block boundary exists in `s` exactly when a title pattern begins at the
start of the text, right after a newline that opens the text, or right after
two consecutive newlines (a blank line) anywhere in the text. -/
def BlockBoundarySpec (s : List Char) : Prop :=
  TitleLineSpec s
  ∨ (∃ tl, s = '\n' :: tl ∧ TitleLineSpec tl)
  ∨ (∃ before tl, s = before ++ '\n' :: '\n' :: tl ∧ TitleLineSpec tl)

theorem takeWhile_append_all {p : Char → Bool} {xs : List Char} (ys : List Char)
    (h : ∀ x ∈ xs, p x = true) : (xs ++ ys).takeWhile p = xs ++ ys.takeWhile p := by
  induction xs with
  | nil => simp
  | cons a tl ih =>
    have ha : p a = true := h a (by simp)
    simp only [List.cons_append, List.takeWhile_cons, if_pos ha, List.cons.injEq, true_and]
    exact ih (fun x hx => h x (by simp [hx]))

theorem dropWhile_append_all {p : Char → Bool} {xs : List Char} (ys : List Char)
    (h : ∀ x ∈ xs, p x = true) : (xs ++ ys).dropWhile p = ys.dropWhile p := by
  induction xs with
  | nil => simp
  | cons a tl ih =>
    have ha : p a = true := h a (by simp)
    simp only [List.cons_append, List.dropWhile_cons, if_pos ha]
    exact ih (fun x hx => h x (by simp [hx]))

theorem dropWhile_cons_neg {p : Char → Bool} {c : Char} (l : List Char)
    (h : p c = false) : (c :: l).dropWhile p = c :: l := by
  simp [List.dropWhile_cons, h]

theorem drop_takeWhile_length (p : Char → Bool) (l : List Char) :
    l.drop (l.takeWhile p).length = l.dropWhile p := by
  induction l with
  | nil => simp
  | cons a tl ih =>
    rw [List.takeWhile_cons, List.dropWhile_cons]
    by_cases h : p a = true
    · simp only [if_pos h, List.length_cons, List.drop_succ_cons]
      exact ih
    · simp [if_neg h]

theorem takeWhile_append_drop (p : Char → Bool) (l : List Char) :
    l.takeWhile p ++ l.drop (l.takeWhile p).length = l := by
  rw [drop_takeWhile_length, List.takeWhile_append_dropWhile]

theorem afterColon_isSome_iff (l : List Char) :
    (afterColon l).isSome = true ↔
      ∃ ws2 rest, l = ws2 ++ '\n' :: rest ∧ ∀ c ∈ ws2, isNonNlWs c = true := by
  constructor
  · intro h
    unfold afterColon at h
    cases hdw : l.dropWhile isNonNlWs with
    | nil => rw [hdw] at h; simp [headNl] at h
    | cons c tl =>
      rw [hdw, headNl] at h
      by_cases hc : c = '\n'
      · subst hc
        refine ⟨l.takeWhile isNonNlWs, tl, ?_, fun c hc => List.mem_takeWhile_imp hc⟩
        conv_lhs => rw [← takeWhile_append_drop isNonNlWs l]
        rw [drop_takeWhile_length, hdw]
      · simp [if_neg hc] at h
  · rintro ⟨ws2, rest, rfl, hws2⟩
    unfold afterColon
    rw [dropWhile_append_all _ hws2, dropWhile_cons_neg _ (by simp [isNonNlWs])]
    simp [headNl]

theorem colonStep_isSome_iff (l : List Char) :
    (colonStep l).isSome = true ↔
      ∃ ws1 ws2 rest, l = ws1 ++ ':' :: (ws2 ++ '\n' :: rest) ∧
        (∀ c ∈ ws1, isWs c = true) ∧ (∀ c ∈ ws2, isNonNlWs c = true) := by
  constructor
  · intro h
    unfold colonStep at h
    cases hdw : l.dropWhile isWs with
    | nil => rw [hdw] at h; simp [colonHead] at h
    | cons c tl =>
      rw [hdw, colonHead] at h
      by_cases hc : c = ':'
      · subst hc
        rw [if_pos rfl] at h
        obtain ⟨ws2, rest, htl, hws2⟩ := (afterColon_isSome_iff tl).mp h
        refine ⟨l.takeWhile isWs, ws2, rest, ?_, fun c hc => List.mem_takeWhile_imp hc, hws2⟩
        conv_lhs => rw [← takeWhile_append_drop isWs l]
        rw [drop_takeWhile_length, hdw, htl]
      · simp [if_neg hc] at h
  · rintro ⟨ws1, ws2, rest, rfl, hws1, hws2⟩
    unfold colonStep
    rw [dropWhile_append_all _ hws1, dropWhile_cons_neg _ (by simp [isWs]), colonHead,
      if_pos rfl]
    rw [(afterColon_isSome_iff _).mpr ⟨ws2, rest, rfl, hws2⟩]

theorem tryK_isSome_iff (run after : List Char) (K : ℕ) :
    (tryK run after K).isSome = true ↔
      ∃ k ≤ K, (colonStep (run.drop k ++ after)).isSome = true := by
  induction K with
  | zero =>
    rw [tryK]
    constructor
    · intro h
      refine ⟨0, le_refl 0, ?_⟩
      cases hc : colonStep (run.drop 0 ++ after) with
      | none => rw [hc] at h; simp at h
      | some r => simp
    · rintro ⟨k, hk, h⟩
      interval_cases k
      cases hc : colonStep (run.drop 0 ++ after) with
      | none => rw [hc] at h; simp at h
      | some r => simp [hc]
  | succ n ih =>
    rw [tryK]
    cases hc : colonStep (run.drop (n + 1) ++ after) with
    | some r =>
      simp only [Option.isSome_some, true_iff]
      exact ⟨n + 1, le_refl _, by simp [hc]⟩
    | none =>
      rw [ih]
      constructor
      · rintro ⟨k, hk, h⟩
        exact ⟨k, Nat.le_succ_of_le hk, h⟩
      · rintro ⟨k, hk, h⟩
        by_cases hk' : k = n + 1
        · subst hk'
          rw [hc] at h
          simp at h
        · exact ⟨k, by omega, h⟩

theorem matchTitle_isSome_iff (l : List Char) :
    (matchTitle l).isSome = true ↔ TitleLineSpec l := by
  cases l with
  | nil =>
    simp only [matchTitle, Option.isSome_none, Bool.false_eq_true, false_iff]
    rintro ⟨u, body, ws1, ws2, rest, h, -⟩
    exact absurd h (by simp)
  | cons u tl =>
    rw [matchTitle]
    by_cases hu : isUpperAZ u = true
    · rw [if_pos hu]
      rw [Option.isSome_map']
      rw [tryK_isSome_iff]
      constructor
      · rintro ⟨k, hk, h⟩
        obtain ⟨ws1, ws2, rest, hdec, hws1, hws2⟩ := (colonStep_isSome_iff _).mp h
        refine ⟨u, (tl.takeWhile isWordWs).take k, ws1, ws2, rest, ?_, hu, ?_, ?_, hws1, hws2⟩
        · have h1 : tl = (tl.takeWhile isWordWs).take k ++
              ((tl.takeWhile isWordWs).drop k ++ tl.drop (tl.takeWhile isWordWs).length) := by
            rw [← List.append_assoc, List.take_append_drop]
            exact (takeWhile_append_drop isWordWs tl).symm
          have h2 : (tl.takeWhile isWordWs).take k ++
              ((tl.takeWhile isWordWs).drop k ++ tl.drop (tl.takeWhile isWordWs).length) =
              (tl.takeWhile isWordWs).take k ++ (ws1 ++ ':' :: (ws2 ++ '\n' :: rest)) := by
            rw [hdec]
          exact congrArg (u :: ·) (h1.trans h2)
        · have := min_le_left 20 (tl.takeWhile isWordWs).length
          simp only [List.length_take]
          omega
        · intro c hc
          exact List.mem_takeWhile_imp (List.mem_of_mem_take hc)
      · rintro ⟨u', body, ws1, ws2, rest, hdec, hu', hlen, hbody, hws1, hws2⟩
        rw [List.cons.injEq] at hdec
        obtain ⟨rfl, htl⟩ := hdec
        have hk : body.length ≤ (tl.takeWhile isWordWs).length := by
          rw [htl, takeWhile_append_all _ hbody]
          simp
        refine ⟨body.length, ?_, ?_⟩
        · omega
        · have hsplit : (tl.takeWhile isWordWs).drop body.length ++
              tl.drop (tl.takeWhile isWordWs).length = tl.drop body.length := by
            conv_rhs => rw [← takeWhile_append_drop isWordWs tl]
            rw [List.drop_append_of_le_length hk]
          rw [hsplit, htl, List.drop_left]
          exact (colonStep_isSome_iff _).mpr ⟨ws1, ws2, rest, rfl, hws1, hws2⟩
    · rw [if_neg hu]
      simp only [Option.isSome_none, Bool.false_eq_true, false_iff]
      rintro ⟨u', body, ws1, ws2, rest, hdec, hu', -⟩
      rw [List.cons.injEq] at hdec
      obtain ⟨rfl, -⟩ := hdec
      exact hu hu'

theorem matchBlockAt_isSome_iff (l : List Char) :
    (matchBlockAt l).isSome = true ↔ TitleLineSpec l := by
  rw [← matchTitle_isSome_iff]
  unfold matchBlockAt
  cases matchTitle l <;> simp

theorem blockNlNl_isSome_iff (s : List Char) :
    (blockNlNl s).isSome = true ↔
      ∃ tl, s = '\n' :: '\n' :: tl ∧ TitleLineSpec tl := by
  cases s with
  | nil => simp [blockNlNl]
  | cons c tl =>
    cases tl with
    | nil => simp [blockNlNl]
    | cons c2 tl2 =>
      rw [blockNlNl]
      by_cases hc : c = '\n' ∧ c2 = '\n'
      · obtain ⟨rfl, rfl⟩ := hc
        rw [if_pos ⟨rfl, rfl⟩, matchBlockAt_isSome_iff]
        constructor
        · intro h
          exact ⟨tl2, rfl, h⟩
        · rintro ⟨tl', heq, h⟩
          obtain ⟨-, -, rfl⟩ := by
            simpa only [List.cons.injEq] using heq
          exact h
      · rw [if_neg hc]
        simp only [Option.isSome_none, Bool.false_eq_true, false_iff]
        rintro ⟨tl', heq, -⟩
        obtain ⟨h1, h2, -⟩ := by
          simpa only [List.cons.injEq] using heq
        exact hc ⟨h1, h2⟩

theorem findBlockTail_isSome_iff (s : List Char) :
    (findBlockTail s).isSome = true ↔
      ∃ before tl, s = before ++ '\n' :: '\n' :: tl ∧ TitleLineSpec tl := by
  induction s with
  | nil =>
    simp only [findBlockTail, Option.isSome_none, Bool.false_eq_true, false_iff]
    rintro ⟨before, tl, heq, -⟩
    exact absurd heq.symm (by simp)
  | cons c tl ih =>
    rw [findBlockTail]
    cases hhd : blockNlNl (c :: tl) with
    | some bp =>
      simp only [Option.isSome_some, true_iff]
      obtain ⟨tl', heq, hspec⟩ := (blockNlNl_isSome_iff (c :: tl)).mp (by simp [hhd])
      exact ⟨[], tl', by simpa using heq, hspec⟩
    | none =>
      have hno : ¬ ∃ tl', (c :: tl : List Char) = '\n' :: '\n' :: tl' ∧ TitleLineSpec tl' := by
        intro hex
        have := (blockNlNl_isSome_iff (c :: tl)).mpr hex
        rw [hhd] at this
        simp at this
      rw [Option.isSome_map']
      rw [ih]
      constructor
      · rintro ⟨before, tl', heq, hspec⟩
        exact ⟨c :: before, tl', by simp [heq], hspec⟩
      · rintro ⟨before, tl', heq, hspec⟩
        cases before with
        | nil =>
          exact absurd ⟨tl', by simpa using heq, hspec⟩ hno
        | cons b before' =>
          obtain ⟨-, h2⟩ := by
            simpa only [List.cons_append, List.cons.injEq] using heq
          exact ⟨before', tl', h2, hspec⟩

theorem blockStartNl_isSome_iff (s : List Char) :
    (blockStartNl s).isSome = true ↔
      ∃ tl, s = '\n' :: tl ∧ TitleLineSpec tl := by
  cases s with
  | nil => simp [blockStartNl]
  | cons c tl =>
    rw [blockStartNl]
    by_cases hc : c = '\n'
    · subst hc
      rw [if_pos rfl, matchBlockAt_isSome_iff]
      constructor
      · intro h
        exact ⟨tl, rfl, h⟩
      · rintro ⟨tl', heq, h⟩
        obtain ⟨-, rfl⟩ := by
          simpa only [List.cons.injEq] using heq
        exact h
    · rw [if_neg hc]
      simp only [Option.isSome_none, Bool.false_eq_true, false_iff]
      rintro ⟨tl', heq, -⟩
      obtain ⟨h1, -⟩ := by
        simpa only [List.cons.injEq] using heq
      exact hc h1

/-- The scanner of `BLOCK_RE` finds a match exactly when the declarative
boundary condition holds somewhere in the input. -/
theorem findBlock_isSome_iff (s : List Char) :
    (findBlock s).isSome = true ↔ BlockBoundarySpec s := by
  unfold findBlock BlockBoundarySpec
  cases h0 : matchBlockAt s with
  | some bp =>
    simp only [Option.isSome_some, true_iff]
    exact Or.inl ((matchBlockAt_isSome_iff s).mp (by simp [h0]))
  | none =>
    have hno0 : ¬ TitleLineSpec s := by
      intro hs
      have := (matchBlockAt_isSome_iff s).mpr hs
      rw [h0] at this
      simp at this
    cases h1 : blockStartNl s with
    | some bp =>
      simp only [Option.isSome_some, true_iff]
      exact Or.inr (Or.inl ((blockStartNl_isSome_iff s).mp (by simp [h1])))
    | none =>
      have hno1 : ¬ ∃ tl, s = '\n' :: tl ∧ TitleLineSpec tl := by
        intro hs
        have := (blockStartNl_isSome_iff s).mpr hs
        rw [h1] at this
        simp at this
      rw [findBlockTail_isSome_iff]
      constructor
      · intro h
        exact Or.inr (Or.inr h)
      · rintro (h | h | h)
        · exact absurd h hno0
        · exact absurd h hno1
        · exact h

/-! ### Properties of the compatibility extractor -/

theorem closeHere_of_startsWith {l : List Char} (h : endMarker <+: l) : closeHere l = true := by
  obtain ⟨t, rfl⟩ := h
  unfold closeHere
  rw [show (endMarker ++ t : List Char) = '@' :: ("end_compatibility".toList ++ t) from rfl]
  rw [dropWhile_cons_neg _ (by decide)]
  rw [isPrefixOf_true_iff]
  exact ⟨t, rfl⟩

theorem findBody_decomp {l b r : List Char} (h : findBody l = some (b, r)) :
    ∃ z, l = b ++ z ∧ closeHere z = true := by
  induction l generalizing b r with
  | nil => exact absurd h (by simp [findBody])
  | cons c tl ih =>
    rw [findBody] at h
    by_cases hc : closeHere (c :: tl) = true
    · simp only [if_pos hc, Option.some.injEq, Prod.mk.injEq] at h
      obtain ⟨hb, -⟩ := h
      subst hb
      exact ⟨c :: tl, by simp, hc⟩
    · rw [if_neg hc] at h
      cases hf : findBody tl with
      | none => rw [hf] at h; exact absurd h (by simp)
      | some p =>
        obtain ⟨b', r'⟩ := p
        rw [hf] at h
        simp only [Option.map_some', Option.some.injEq, Prod.mk.injEq] at h
        obtain ⟨hb, -⟩ := h
        subst hb
        obtain ⟨z, hz, hcz⟩ := ih hf
        exact ⟨z, by rw [List.cons_append, ← hz], hcz⟩

/-- The lazy body never contains the close marker: any occurrence inside the
body would have closed the body earlier. -/
theorem findBody_no_close {l b r : List Char} (h : findBody l = some (b, r)) :
    ¬ endMarker <:+: b := by
  induction l generalizing b r with
  | nil => exact absurd h (by simp [findBody])
  | cons c tl ih =>
    rw [findBody] at h
    by_cases hc : closeHere (c :: tl) = true
    · simp only [if_pos hc, Option.some.injEq, Prod.mk.injEq] at h
      obtain ⟨hb, -⟩ := h
      subst hb
      intro hinf
      exact absurd (List.eq_nil_of_infix_nil hinf) (by decide)
    · rw [if_neg hc] at h
      cases hf : findBody tl with
      | none => rw [hf] at h; exact absurd h (by simp)
      | some p =>
        obtain ⟨b', r'⟩ := p
        rw [hf] at h
        simp only [Option.map_some', Option.some.injEq, Prod.mk.injEq] at h
        obtain ⟨hb, -⟩ := h
        subst hb
        intro hinf
        rw [List.infix_cons_iff] at hinf
        rcases hinf with hpre | hinf
        · obtain ⟨z, hz, -⟩ := findBody_decomp hf
          have hpre2 : endMarker <+: c :: tl := by
            rw [hz, ← List.cons_append]
            exact hpre.trans (List.prefix_append (c :: b') z)
          exact absurd (closeHere_of_startsWith hpre2) hc
        · exact (ih hf) hinf

theorem wsThruLastNl_suffix {l r : List Char} (h : wsThruLastNl l = some r) :
    r <:+ l := by
  induction l generalizing r with
  | nil => exact absurd h (by simp [wsThruLastNl])
  | cons c tl ih =>
    rw [wsThruLastNl] at h
    by_cases hw : isWs c = true
    · rw [if_pos hw] at h
      cases hr : wsThruLastNl tl with
      | some r' =>
        rw [hr] at h
        simp only [Option.some.injEq] at h
        subst h
        exact (ih hr).trans (List.suffix_cons c tl)
      | none =>
        rw [hr] at h
        by_cases hc : c = '\n'
        · simp only [if_pos hc, Option.some.injEq] at h
          subst h
          exact List.suffix_cons c tl
        · simp [if_neg hc] at h
    · simp [if_neg hw] at h

theorem parenTest_suffix {l r : List Char} (h : parenTest l = some r) : r <:+ l := by
  cases l with
  | nil => exact absurd h (by simp [parenTest])
  | cons p tl2 =>
    rw [parenTest] at h
    by_cases hp : p = ')'
    · rw [if_pos hp] at h
      exact (wsThruLastNl_suffix h).trans (List.suffix_cons p tl2)
    · simp [if_neg hp] at h

theorem findTagParen_suffix {l tag r : List Char} (h : findTagParen l = some (tag, r)) :
    r <:+ l := by
  induction l generalizing tag r with
  | nil => exact absurd h (by simp [findTagParen])
  | cons c tl ih =>
    rw [findTagParen] at h
    by_cases hc : c = '\n'
    · simp [if_pos hc] at h
    · rw [if_neg hc] at h
      cases hpt : parenTest tl with
      | some bodyStart =>
        rw [hpt] at h
        simp only [Option.some.injEq, Prod.mk.injEq] at h
        obtain ⟨-, rfl⟩ := h
        exact (parenTest_suffix hpt).trans (List.suffix_cons c tl)
      | none =>
        rw [hpt] at h
        cases hf : findTagParen tl with
        | none => rw [hf] at h; exact absurd h (by simp)
        | some q =>
          obtain ⟨t', r'⟩ := q
          rw [hf] at h
          simp only [Option.map_some', Option.some.injEq, Prod.mk.injEq] at h
          obtain ⟨-, rfl⟩ := h
          exact (ih hf).trans (List.suffix_cons c tl)

/-- Any match of the compatibility pattern contains the close marker. -/
theorem tryCompat_infix_end {w tag body r : List Char}
    (h : tryCompat w = some (tag, body, r)) : endMarker <:+: w := by
  unfold tryCompat at h
  by_cases hop : openMarker.isPrefixOf (w.dropWhile isSpTab) = true
  · rw [if_pos hop] at h
    cases htp : findTagParen ((w.dropWhile isSpTab).drop openMarker.length) with
    | none => rw [htp] at h; exact absurd h (by simp)
    | some q =>
      obtain ⟨tag', bodyStart⟩ := q
      rw [htp, Option.some_bind] at h
      cases hfb : findBody bodyStart with
      | none => rw [hfb] at h; exact absurd h (by simp)
      | some p =>
        obtain ⟨b', r'⟩ := p
        obtain ⟨z, hz, hcz⟩ := findBody_decomp hfb
        have h1 : endMarker <:+: z := by
          unfold closeHere at hcz
          exact List.IsInfix.trans (infixOfPre ((isPrefixOf_true_iff _ _).mp hcz))
            (infixOfSuf (List.dropWhile_suffix isSpTab))
        have h2 : z <:+ bodyStart := hz ▸ List.suffix_append b' z
        have h3 : bodyStart <:+ w :=
          ((findTagParen_suffix htp).trans (List.drop_suffix _ _)).trans
            (List.dropWhile_suffix isSpTab)
        exact List.IsInfix.trans (List.IsInfix.trans h1 (infixOfSuf h2)) (infixOfSuf h3)
  · rw [if_neg hop] at h
    exact absurd h (by simp)

theorem tryCompat_none_of_no_end {w : List Char} (h : ¬ endMarker <:+: w) :
    tryCompat w = none := by
  cases ht : tryCompat w with
  | none => rfl
  | some p =>
    obtain ⟨tag, body, r⟩ := p
    exact absurd (tryCompat_infix_end ht) h

/-- With no close marker anywhere, the extractor touches nothing. -/
theorem handleCompatAux_id (fuel : ℕ) (s : List Char) (h : ¬ endMarker <:+: s) :
    handleCompatAux fuel s = (s, []) := by
  induction fuel generalizing s with
  | zero => rfl
  | succ n ih =>
    cases s with
    | nil => rfl
    | cons c tl =>
      rw [handleCompatAux, tryCompat_none_of_no_end h]
      rw [ih tl (fun hinf => h (List.infix_cons_iff.mpr (Or.inr hinf)))]

/-- Every body collected by the extractor omits the close marker. -/
theorem handleCompatAux_bodies (fuel : ℕ) (s t b : List Char)
    (h : (t, b) ∈ (handleCompatAux fuel s).2) : ¬ endMarker <:+: b := by
  induction fuel generalizing s with
  | zero => simp [handleCompatAux] at h
  | succ n ih =>
    cases s with
    | nil => simp [handleCompatAux] at h
    | cons c tl =>
      rw [handleCompatAux] at h
      cases htc : tryCompat (c :: tl) with
      | some p =>
        obtain ⟨tag, body, rest⟩ := p
        rw [htc] at h
        simp only [List.mem_cons, Prod.mk.injEq] at h
        rcases h with ⟨-, rfl⟩ | h
        · unfold tryCompat at htc
          by_cases hop : openMarker.isPrefixOf ((c :: tl).dropWhile isSpTab) = true
          · rw [if_pos hop] at htc
            cases htp : findTagParen (((c :: tl).dropWhile isSpTab).drop openMarker.length) with
            | none => rw [htp] at htc; exact absurd htc (by simp)
            | some q =>
              obtain ⟨tag', bodyStart⟩ := q
              rw [htp, Option.some_bind] at htc
              cases hfb : findBody bodyStart with
              | none => rw [hfb] at htc; exact absurd htc (by simp)
              | some p2 =>
                obtain ⟨b2, r2⟩ := p2
                rw [hfb] at htc
                simp only [Option.map_some', Option.some.injEq, Prod.mk.injEq] at htc
                obtain ⟨-, hb, -⟩ := htc
                exact hb ▸ findBody_no_close hfb
          · rw [if_neg hop] at htc
            exact absurd htc (by simp)
        · exact ih rest h
      | none =>
        rw [htc] at h
        exact ih tl h

/-! ### Parity of the item split -/

/-- Every `re.split` result with one capturing group has odd length: a leading
segment plus a (group, following-text) pair per match. -/
theorem itemSplitAux_length_odd (fuel : ℕ) (l : List Char) (b : Bool) :
    (itemSplitAux fuel l b).length % 2 = 1 := by
  induction fuel generalizing l b with
  | zero => simp [itemSplitAux]
  | succ n ih =>
    cases l with
    | nil => simp [itemSplitAux]
    | cons c tl =>
      rw [itemSplitAux]
      cases hti : (if b then tryItem (c :: tl) else none) with
      | some p =>
        obtain ⟨g, w, rest⟩ := p
        simp only [List.length_cons]
        have := ih rest (w == '\n')
        omega
      | none =>
        cases hrec : itemSplitAux n tl (c == '\n') with
        | nil => simp
        | cons pre ps =>
          have := ih tl (c == '\n')
          rw [hrec] at this
          simp only [List.length_cons] at this ⊢
          omega

/-! ### The claims -/

/-- C1 (counterexample): on the docstring of the spec's P2 example, the block
sequence produced by brief extraction followed by title-block segmentation is
not the claimed two-element sequence: its first element is an empty prose
chunk (the text before the `Args` match, which the loop appends
unconditionally). -/
theorem C1_block_sequence_cex :
    (briefTitleParse "Computes max.\n\nArgs:\n  x: input value.\n  y: another.\n\nDone.\n".toList).2.head?
      = some (Chunk.prose []) ∧
    (briefTitleParse "Computes max.\n\nArgs:\n  x: input value.\n  y: another.\n\nDone.\n".toList).2
      ≠ [Chunk.titleBlock "Args".toList [] [("x".toList, "input value.".toList),
          ("y".toList, "another.".toList)],
         Chunk.prose "Done.".toList] := by
  constructor
  · decide
  · decide

/-- C1 (amended): the parse of the P2 docstring yields
`brief = "Computes max."` and the block sequence
`[Prose(""), TitleBlock(title="Args", leadingText="\n",
items=[("x", "input value.\n"), ("y", "another.\n")]), Prose("\nDone.\n")]`:
an empty leading prose chunk is emitted, the leading text keeps the newline
that follows the title colon, the item descriptions keep their trailing
newlines, and the final prose chunk keeps the surrounding newlines. -/
theorem C1_p2_parse_amended :
    briefTitleParse "Computes max.\n\nArgs:\n  x: input value.\n  y: another.\n\nDone.\n".toList
      = ("Computes max.".toList,
         [Chunk.prose [],
          Chunk.titleBlock "Args".toList "\n".toList
            [("x".toList, "input value.\n".toList), ("y".toList, "another.\n".toList)],
          Chunk.prose "\nDone.\n".toList]) := by
  decide

/-- C2 (code bug): the interactive-example fencing pass is not idempotent.
On `"before\n\n>>> a\n\nafter"` the first application produces the correctly
fenced text, but a second application wraps the already-fenced block again
(the pattern only requires a preceding newline, which the opening fence line
supplies, and the closing fence line is swallowed by the `.*?` content), so
the transform changes its own output. -/
theorem C2_fencing_not_idempotent :
    addDoctestFences "before\n\n>>> a\n\nafter".toList
      = "before\n\n```\n>>> a\n```\n\nafter".toList ∧
    addDoctestFences "before\n\n```\n>>> a\n```\n\nafter".toList
      = "before\n\n```\n```\n>>> a\n```\n```\n\nafter".toList ∧
    addDoctestFences (addDoctestFences "before\n\n>>> a\n\nafter".toList)
      ≠ addDoctestFences "before\n\n>>> a\n\nafter".toList := by
  refine ⟨by decide, by decide, by decide⟩

/-- C3 (counterexample): an indented title line is not recognized as a block
boundary. In `"x\n\n  Args:\n  y: z\n"` the line `  Args:` is preceded by a
blank line and consists of leading whitespace, a short capitalized phrase, a
colon and the end of the line, yet the segmenter finds no boundary and
returns the whole text as one prose chunk. -/
theorem C3_indented_title_cex :
    findBlock "x\n\n  Args:\n  y: z\n".toList = none ∧
    splitString "x\n\n  Args:\n  y: z\n".toList
      = [Chunk.prose "x\n\n  Args:\n  y: z\n".toList] := by
  refine ⟨by decide, by decide⟩

/-- C3 (amended): the segmenter finds a block boundary exactly when a title
match begins at the start of its input, right after a newline that opens the
input, or right after two consecutive newlines; the title match is an
upper-case letter (no leading whitespace is permitted) followed by at most 20
word-or-whitespace characters (the whitespace may include line breaks, so the
phrase may span lines), optional whitespace, a colon, optional non-newline
whitespace and a newline. -/
theorem C3_boundary_characterization (s : List Char) :
    (findBlock s).isSome = true ↔ BlockBoundarySpec s :=
  findBlock_isSome_iff s

/-- C4 (counterexample): a docstring that contains the auto-generated
sentinel phrase together with a well-formed compatibility block yields a
non-empty compatibility mapping: the Compatibility Extractor runs before the
sentinel suppression, not after it. -/
theorem C4_sentinel_compat_cex :
    containsSub sentinel
      "Generated by: tensorflow/tools/api/generator\n@compatibility(TF2)\nstuff\n@end_compatibility\n".toList = true ∧
    (parseMdDocstringCore
      "Generated by: tensorflow/tools/api/generator\n@compatibility(TF2)\nstuff\n@end_compatibility\n".toList).compatibility
      = [("TF2".toList, "stuff\n".toList)] ∧
    (parseMdDocstringCore
      "Generated by: tensorflow/tools/api/generator\n@compatibility(TF2)\nstuff\n@end_compatibility\n".toList).compatibility
      ≠ [] := by
  refine ⟨by decide, by decide, by decide⟩

/-- C4 (amended): compatibility extraction happens before the sentinel
suppression. Whenever the stripped text still contains the sentinel, the
returned `DocstringInfo` has an empty brief and an empty block sequence, but
keeps the compatibility mapping extracted from the docstring. -/
theorem C4_suppression_after_compat (raw : List Char)
    (h : containsSub sentinel (compatStrip (atatFilter raw)) = true) :
    parseMdDocstringCore raw = ⟨[], [], compatibilityMap (atatFilter raw)⟩ := by
  unfold parseMdDocstringCore suppressGenerated
  rw [if_pos h]
  rfl

theorem C4_suppression_after_compat_witness :
    containsSub sentinel (compatStrip (atatFilter
      "Generated by: tensorflow/tools/api/generator\n@compatibility(TF2)\nstuff\n@end_compatibility\n".toList)) = true ∧
    parseMdDocstringCore
      "Generated by: tensorflow/tools/api/generator\n@compatibility(TF2)\nstuff\n@end_compatibility\n".toList
      = ⟨[], [], [("TF2".toList, "stuff\n".toList)]⟩ :=
  ⟨by decide,
   (C4_suppression_after_compat _ (by decide)).trans (by decide)⟩

/-- C5: for every title-block content and at every scan state, the item
split produced by `ITEM_RE` consists of a leading-text segment followed by an
even number of pieces, so the defensive even-length assertion of `_pairs`
always holds and the pairing step never fails. -/
theorem C5_item_pairs_even (content : List Char) :
    ((itemSplit content).tail).length % 2 = 0 := by
  have h := itemSplitAux_length_odd (content.length + 1) content true
  unfold itemSplit
  rw [List.length_tail]
  omega

/-- C6 (counterexample): on the empty input the segmenter returns zero
blocks, not a single empty prose block: the split loop never runs. -/
theorem C6_empty_input_cex :
    splitString [] = [] ∧ (splitString []).length ≠ 1 := by
  refine ⟨by decide, by decide⟩

/-- C6 (amended): for every non-empty text in which no block boundary exists,
the segmenter returns exactly one block, a prose block equal to the input
(trailing whitespace included); the empty input instead yields zero
blocks. -/
theorem C6_prose_round_trip (s : List Char) (hne : s ≠ [])
    (h : ¬ BlockBoundarySpec s) : splitString s = [Chunk.prose s] := by
  have hfb : findBlock s = none := by
    cases hf : findBlock s with
    | none => rfl
    | some bp => exact absurd ((findBlock_isSome_iff s).mp (by simp [hf])) h
  have hie : ¬ (s.isEmpty = true) := by
    cases s with
    | nil => exact absurd rfl hne
    | cons a tl => simp
  unfold splitString
  rw [splitStringAux, if_neg hie, hfb]

theorem C6_prose_round_trip_witness :
    splitString "hello world".toList = [Chunk.prose "hello world".toList] :=
  C6_prose_round_trip "hello world".toList (by decide)
    (fun hb => by
      have h1 := (findBlock_isSome_iff "hello world".toList).mpr hb
      rw [show findBlock "hello world".toList = none from by decide] at h1
      exact absurd h1 (by simp))

/-- C7: when the extractor collects exactly two compatibility blocks carrying
the same tag, the mapping holds, for that tag, the body of the second block:
a later duplicate tag overwrites the earlier one. -/
theorem C7_duplicate_tags_last_wins (doc t b1 b2 : List Char)
    (h : compatMatches doc = [(t, b1), (t, b2)]) :
    lookupNote (compatibilityMap doc) t = some b2 := by
  unfold compatibilityMap buildNotes
  rw [h]
  simp [insertNote, lookupNote, List.find?]

theorem C7_duplicate_tags_last_wins_witness :
    lookupNote (compatibilityMap
      "@compatibility(TensorFlow)\nfirst\n@end_compatibility\n@compatibility(TensorFlow)\nsecond\n@end_compatibility".toList)
      "TensorFlow".toList = some "second\n".toList :=
  C7_duplicate_tags_last_wins _ "TensorFlow".toList "first\n".toList "second\n".toList
    (by decide)

/-- C8 (counterexample): a stored body can contain the open marker
`@compatibility(`: with two open markers before one close marker, the match
starts at the first open marker and its lazy body swallows the second. -/
theorem C8_open_marker_in_body_cex :
    lookupNote (compatibilityMap "@compatibility(a)\n@compatibility(b)\nxx@end_compatibility".toList)
      "a".toList = some "@compatibility(b)\nxx".toList ∧
    containsSub openMarker "@compatibility(b)\nxx".toList = true := by
  refine ⟨by decide, by decide⟩

/-- C8 (amended): no body collected by the Compatibility Extractor contains
the close marker `@end_compatibility` (the lazy body stops at the first
position where the close marker follows); open markers, however, can remain
inside a body. -/
theorem C8_no_close_marker_in_body (doc t b : List Char)
    (h : (t, b) ∈ compatMatches doc) : containsSub endMarker b = false := by
  have hni : ¬ endMarker <:+: b := by
    unfold compatMatches handleCompat at h
    exact handleCompatAux_bodies (doc.length + 1) doc t b h
  cases hcs : containsSub endMarker b with
  | false => rfl
  | true => exact absurd ((containsSub_iff endMarker b).mp hcs) hni

theorem C8_no_close_marker_in_body_witness :
    ("t".toList, "body\n".toList) ∈
      compatMatches "@compatibility(t)\nbody\n@end_compatibility".toList ∧
    containsSub endMarker "body\n".toList = false :=
  ⟨by decide,
   C8_no_close_marker_in_body "@compatibility(t)\nbody\n@end_compatibility".toList
     "t".toList "body\n".toList (by decide)⟩

/-- C9: on an input that contains an open compatibility marker but no close
marker, the extractor strips nothing and collects nothing: the dangling open
marker and all following text stay in the returned text unchanged and no
entry is added to the mapping. -/
theorem C9_dangling_open_untouched (doc : List Char)
    (_hopen : containsSub openMarker doc = true)
    (hend : containsSub endMarker doc = false) :
    handleCompat doc = (doc, []) := by
  have hni : ¬ endMarker <:+: doc := by
    intro hinf
    have := (containsSub_iff endMarker doc).mpr hinf
    rw [hend] at this
    exact absurd this (by simp)
  unfold handleCompat
  exact handleCompatAux_id (doc.length + 1) doc hni

theorem C9_dangling_open_untouched_witness :
    containsSub openMarker "text\n@compatibility(x)\ndangling no close".toList = true ∧
    handleCompat "text\n@compatibility(x)\ndangling no close".toList
      = ("text\n@compatibility(x)\ndangling no close".toList, []) :=
  ⟨by decide,
   C9_dangling_open_untouched "text\n@compatibility(x)\ndangling no close".toList
     (by decide) (by decide)⟩

/-- C10: there is an input on which the segmenter produces a title block
whose title contains a newline: the title character class accepts any
whitespace after the initial upper-case letter, so a recognized title may
span two physical lines before its colon. -/
theorem C10_title_spanning_lines :
    ∃ s title text items,
      Chunk.titleBlock title text items ∈ splitString s ∧ '\n' ∈ title :=
  ⟨"\nArgs\nmore:\n x\n".toList, "Args\nmore".toList, "\nx".toList, [],
   by decide, by decide⟩

end TfDocs
